import Mathlib

/-!
Verification of the deep-research report generator (`src/deep_ai/agent.py`,
`src/deep_ai/util.py`) against its natural-language specification.

Python strings are modelled as `List Char`; Python exceptions are modelled
with `Except`: a function that can raise returns `Except Str α`, and a
`try/except` block is a `match` on that value.  Outcomes of calls into
external providers (the OpenAI LLM client and the Tavily search client)
are passed in as explicit `Except`-valued arguments, so each theorem
quantifies over every possible provider behaviour.
-/

namespace DeepResearch

/-- Python strings, modelled as lists of characters. -/
abbrev Str := List Char

/-- Coerce a Lean string literal to the `List Char` model. -/
def strL (s : String) : Str := s.toList

/-! ### Python `str.replace`

`replaceFuel pat rep fuel l` models CPython's `str.replace`: scan left to
right; whenever `pat` matches at the current position, emit `rep` and skip
past the match (non-overlapping, leftmost-first); otherwise copy one
character.  The `fuel` argument (instantiated with the length of the input
in `pyReplace`) only makes the recursion structural. -/
def replaceFuel (pat rep : Str) : Nat → Str → Str
  | _, [] => []
  | 0, l => l
  | fuel + 1, c :: rest =>
    if pat.isPrefixOf (c :: rest) then
      rep ++ replaceFuel pat rep fuel (List.drop pat.length (c :: rest))
    else
      c :: replaceFuel pat rep fuel rest

/-- Python `s.replace(pat, rep)` (for a non-empty `pat`, which is the only
way the source uses it). -/
def pyReplace (pat rep l : Str) : Str := replaceFuel pat rep l.length l

/-- Python `pat in s` (substring containment test). -/
def containsSub (pat : Str) : Str → Bool
  | [] => pat.isEmpty
  | c :: rest => pat.isPrefixOf (c :: rest) || containsSub pat rest

/-! ### `compile_final_report` — the `$`-escaping pass (agent.py lines 383-385)

```
formatted_sections = all_sections.replace("\$", "TEMP_PLACEHOLDER")
formatted_sections = formatted_sections.replace("$", "\$")
formatted_sections = formatted_sections.replace("TEMP_PLACEHOLDER", "\$")
```
-/

/-- The literal marker string `"TEMP_PLACEHOLDER"` used by the
mark-escape-restore pass. -/
def tempMarker : Str := strL "TEMP_PLACEHOLDER"

/-- The two-character sequence `\$` (an escaped dollar). -/
def escSeq : Str := ['\\', '$']

/-- The three-replace escaping pass of `compile_final_report`. -/
def escape_pass (s : Str) : Str :=
  pyReplace tempMarker escSeq (pyReplace ['$'] escSeq (pyReplace escSeq tempMarker s))

/-- The first two replaces of `escape_pass` (mark already-escaped dollars,
then escape every remaining dollar). -/
def markAndEscape (s : Str) : Str :=
  pyReplace ['$'] escSeq (pyReplace escSeq tempMarker s)

/-- Modelled from the spec's words (for comparison with `escape_pass`):
a single left-to-right scan that leaves an already-escaped `\$` unchanged
and inserts exactly one backslash in front of every bare `$`. -/
def escapeSpec : Str → Str
  | [] => []
  | [c] => if c = '$' then ['\\', '$'] else [c]
  | c :: d :: t =>
    if c = '\\' ∧ d = '$' then '\\' :: '$' :: escapeSpec t
    else if c = '$' then '\\' :: '$' :: escapeSpec (d :: t)
    else c :: escapeSpec (d :: t)

/-! ### The `Section` model and `compile_final_report` (agent.py) -/

/-- `Section` (agent.py lines 19-31): one planned unit of the report. -/
structure Section where
  name : Str
  description : Str
  research : Bool
  content : Str
deriving DecidableEq

/-- The Python dict comprehension
`{s.name: s.content for s in state["completed_sections"]}` as an
association list (in iteration order). -/
def buildDict (completed : List Section) : List (Str × Str) :=
  completed.map (fun s => (s.name, s.content))

/-- Lookup in a Python dict built from an association list: a later binding
of the same key overwrites an earlier one (last one wins). -/
def dictGet (k : Str) : List (Str × Str) → Option Str
  | [] => none
  | (k', v) :: rest =>
    match dictGet k rest with
    | some w => some w
    | none => if k' = k then some v else none

/-- The loop `for section in sections: section.content =
completed_sections[section.name]` (agent.py lines 377-378): look up every
planned section's name in order; a missing name raises `KeyError(name)`
(the spec's `MissingSectionError`), which aborts the loop at the first
missing planned section. -/
def lookupContents (dict : List (Str × Str)) : List Section → Except Str (List Str)
  | [] => .ok []
  | s :: rest =>
    match dictGet s.name dict with
    | none => .error s.name
    | some c =>
      match lookupContents dict rest with
      | .error e => .error e
      | .ok cs => .ok (c :: cs)

/-- `compile_final_report` (agent.py lines 367-392): build the
name-to-content dict from `completed_sections`, reassign contents onto the
planned order, join with `"\n\n"`, and run the `$`-escaping pass.
`.error n` models the `KeyError` escaping the function. -/
def compile_final_report (sections completed : List Section) : Except Str Str :=
  match lookupContents (buildDict completed) sections with
  | .error n => .error n
  | .ok contents => .ok (escape_pass (List.intercalate (strL "\n\n") contents))

/-- The content `compile_final_report` uses for a planned name: the value
of the name-to-content dict at that name (arbitrary if absent). -/
def contentFor (completed : List Section) (n : Str) : Str :=
  (dictGet n (buildDict completed)).getD []

/-! ### The per-section stages (agent.py)

Each stage's interactions with the OpenAI provider are two fallible calls:
`get_llm()` (client construction) and `llm.invoke(...)` / structured
invoke.  Their outcomes are passed in as `Except Str` arguments; `.error`
models the call raising. -/

/-- `SearchQuery` (agent.py lines 38-39). -/
structure SearchQuery where
  search_query : Str
deriving DecidableEq

/-- `generate_queries` (agent.py lines 158-189).  Only the `get_llm()`
call sits inside a `try/except` (which returns `{"search_queries": []}`);
the structured `invoke` call is unguarded, so its exception propagates out
of the stage (modelled by `.error`). -/
def generate_queries (get_llm : Except Str Unit)
    (invoke : Except Str (List SearchQuery)) : Except Str (List SearchQuery) :=
  match get_llm with
  | .error _ => .ok []
  | .ok _ =>
    match invoke with
    | .error e => .error e
    | .ok qs => .ok qs

/-- The fixed placeholder written by `write_section` when LLM construction
fails (agent.py line 229). -/
def apiErrorPlaceholder : Str := strL "Error: Could not generate content due to API issues."

/-- `write_section` (agent.py lines 214-248).  `get_llm()` failure is
caught and the section is completed with `apiErrorPlaceholder` as content;
the `llm.invoke` call is unguarded, so its exception propagates. -/
def write_section (get_llm : Except Str Unit) (invoke : Except Str Str)
    (sec : Section) : Except Str (List Section) :=
  match get_llm with
  | .error _ => .ok [{ sec with content := apiErrorPlaceholder }]
  | .ok _ =>
    match invoke with
    | .error e => .error e
    | .ok content => .ok [{ sec with content := content }]

/-- The exception raised by CPython when a local variable is read before
assignment. -/
def unboundLocalError : Str := strL "UnboundLocalError: local variable llm referenced before assignment"

/-- `write_final_sections` (agent.py lines 319-350).  The `except` branch
around `get_llm()` only prints (its comment announces a return that is not
there), so control falls through with `llm` unbound and the later
`llm.invoke(...)` raises `UnboundLocalError`, which propagates out of the
stage.  The `invoke` call itself is also unguarded. -/
def write_final_sections (get_llm : Except Str Unit) (invoke : Except Str Str)
    (sec : Section) : Except Str (List Section) :=
  match get_llm with
  | .error _ => .error unboundLocalError
  | .ok _ =>
    match invoke with
    | .error e => .error e
    | .ok content => .ok [{ sec with content := content }]

/-- `generate_report_plan` (agent.py lines 83-153).  The `get_llm()` call
and the whole planning body (structured query generation, planning web
search, structured section generation) each sit inside `try/except`
returning `{"sections": []}`, so no exception leaves the stage: the
returned plan degrades to the empty section list. -/
def generate_report_plan (get_llm : Except Str Unit)
    (body : Except Str (List Section)) : List Section :=
  match get_llm with
  | .error _ => []
  | .ok _ =>
    match body with
    | .error _ => []
    | .ok secs => secs

/-! ### `format_sections` (agent.py lines 281-298) -/

/-- Python `str(idx)` for the 1-based index. -/
def natStr (n : Nat) : Str := strL (toString n)

/-- The `'='*60` separator line. -/
def sepLine : Str := List.replicate 60 '='

/-- One block of `format_sections` for section number `idx`. -/
def format_section_block (idx : Nat) (s : Section) : Str :=
  strL "\n" ++ sepLine ++ strL "\nSection " ++ natStr idx ++ strL ": " ++ s.name
    ++ strL "\n" ++ sepLine ++ strL "\nDescription:\n" ++ s.description
    ++ strL "\nRequires Research:\n" ++ (if s.research then strL "True" else strL "False")
    ++ strL "\n\nContent:\n"
    ++ (if s.content = [] then strL "[Not yet written]" else s.content)
    ++ strL "\n\n"

/-- The `enumerate(sections, 1)` loop of `format_sections`. -/
def format_sections_from (idx : Nat) : List Section → Str
  | [] => []
  | s :: rest => format_section_block idx s ++ format_sections_from (idx + 1) rest

/-- `format_sections` (agent.py lines 281-298). -/
def format_sections (sections : List Section) : Str :=
  format_sections_from 1 sections

/-! ### The workflow graph (agent.py lines 396-415)

`builder` wires: `generate_report_plan` → conditional edge
(`parallelize_section_writing`) fanning out over research sections into
the section-builder subgraph → `format_completed_sections` → conditional
edge (`parallelize_final_section_writing`) fanning out over non-research
sections into `write_final_sections` → `compile_final_report`.
`run_workflow` is that graph with each fan-out stage's per-section run
abstracted as a `Section → Except Str Section` function (a branch either
contributes its completed section or raises); the joins are barriers, and
an uncaught exception in any branch aborts the run, as a raising
LangGraph node does.

The conditional edges schedule exactly the `Send` packets their router
returns.  When a router returns the empty list — no research sections
after planning, or no non-research sections after the research join —
LangGraph schedules no successor tasks and the run simply ends there:
the stages downstream of that edge, including `compile_final_report`,
never execute, and the `final_report` state key is never written.  The
result type `Except Str (Option Str)` records this: `.ok (some r)` is a
run that reached COMPILE and wrote `final_report = r`, `.ok none` is a
run that completed without ever writing `final_report`, and `.error e`
is a run aborted by an uncaught exception. -/

/-- Fan-out/join: run every branch, collecting the completed sections;
a branch's uncaught exception aborts the stage. -/
def mapStages (f : Section → Except Str Section) : List Section → Except Str (List Section)
  | [] => .ok []
  | s :: rest =>
    match f s with
    | .error e => .error e
    | .ok s' =>
      match mapStages f rest with
      | .error e => .error e
      | .ok rest' => .ok (s' :: rest')

/-- The full report workflow of agent.py: plan, research fan-out/join,
format the research context, final-section fan-out/join, compile — with
an empty fan-out (an empty `Send` list from a conditional edge) ending
the run right there, so that everything downstream of that edge,
`compile_final_report` included, never runs and `final_report` is never
written (`.ok none`). -/
def run_workflow (plan_llm : Except Str Unit) (plan_body : Except Str (List Section))
    (research_step : Section → Except Str Section)
    (final_step : Str → Section → Except Str Section) : Except Str (Option Str) :=
  let sections := generate_report_plan plan_llm plan_body
  match sections.filter (fun s => s.research) with
  | [] => .ok none
  | r :: rs =>
    match mapStages research_step (r :: rs) with
    | .error e => .error e
    | .ok researched =>
      let ctx := format_sections researched
      match sections.filter (fun s => !s.research) with
      | [] => .ok none
      | f :: fs =>
        match mapStages (final_step ctx) (f :: fs) with
        | .error e => .error e
        | .ok finals =>
          match compile_final_report sections (researched ++ finals) with
          | .error e => .error e
          | .ok r => .ok (some r)

/-! ### `util.py`: search aggregation and formatting -/

/-- A Python value as seen by `format_search_query_results`: a dict (with
the keys the function reads — title, url, content, raw_content — each
modelled by presence/absence, plus an optional nested `results` list), a
list, or anything else.  `'results' in d` is modelled by the `results`
field being `some`. -/
inductive PVal where
  | dict (title url content raw_content : Option Str) (results : Option (List PVal))
  | plist (xs : List PVal)
  | other

/-- Flattening of one element of a list-shaped `search_response`
(util.py lines 104-111): a dict contributes its `results` list if present,
else itself; a nested list is extended verbatim; anything else is ignored. -/
def flattenElem : PVal → List PVal
  | .dict t u c r (some res) => res
  | .dict t u c r none => [.dict t u c r none]
  | .plist xs => xs
  | .other => []

/-- The `for response in search_response` loop (util.py lines 104-111). -/
def flattenList : List PVal → List PVal
  | [] => []
  | x :: rest => flattenElem x ++ flattenList rest

/-- Building `sources_list` from `search_response` (util.py lines 95-111):
a dict contributes its `results` list if present, else itself; a list is
flattened element-wise; any other value yields no sources. -/
def flattenResp : PVal → List PVal
  | .dict t u c r (some res) => res
  | .dict t u c r none => [.dict t u c r none]
  | .plist rs => flattenList rs
  | .other => []

/-- `isinstance(source, dict) and 'url' in source`, returning the url. -/
def urlOf : PVal → Option Str
  | .dict _ (some u) _ _ _ => some u
  | _ => none

/-- The dedup loop (util.py lines 116-121): walk `sources_list` keeping
the first source for each url (`seen` is the set of urls already in
`unique_sources`); sources that are not dicts with a `url` key are
skipped.  The result is `unique_sources.values()` in insertion order. -/
def dedupByUrl : List PVal → List Str → List PVal
  | [], _ => []
  | s :: rest, seen =>
    match urlOf s with
    | some u =>
      if u ∈ seen then dedupByUrl rest seen
      else s :: dedupByUrl rest (u :: seen)
    | none => dedupByUrl rest seen

/-- The urls recorded in `unique_sources` after walking a source list. -/
def seenAfter : List PVal → List Str → List Str
  | [], seen => seen
  | s :: rest, seen =>
    match urlOf s with
    | some u =>
      if u ∈ seen then seenAfter rest seen
      else seenAfter rest (u :: seen)
    | none => seenAfter rest seen

/-- The literal returned when the flattened source list is empty
(util.py line 114). -/
def noResultsMsg : Str := strL "No search results found."

/-- The header the formatted output starts from (util.py line 124). -/
def headerMsg : Str := strL "Content from web search:\n\n"

/-- One formatted block of the output loop (util.py lines 125-137).
`truncate` abstracts the external tiktoken round-trip
`encoding.decode(encoding.encode(raw)[:max_tokens])`.  Only dicts with a
`url` key ever reach this function (dedup skips everything else). -/
def formatSource (truncate : Nat → Str → Str) (max_tokens : Nat)
    (include_raw_content : Bool) : PVal → Str
  | .dict t (some u) c r _ =>
    strL "Source " ++ t.getD (strL "Untitled") ++ strL ":\n===\n"
      ++ strL "URL: " ++ u ++ strL "\n===\n"
      ++ strL "Most relevant content from source: "
      ++ c.getD (strL "No content available") ++ strL "\n===\n"
      ++ (if include_raw_content then
            match r with
            | some raw =>
              if raw = [] then []
              else strL "Raw Content: " ++ truncate max_tokens raw ++ strL "\n\n"
            | none => []
          else [])
  | _ => []

/-- Concatenation of the formatted blocks (the `formatted_text +=` loop). -/
def concatBlocks : List Str → Str
  | [] => []
  | b :: rest => b ++ concatBlocks rest

/-- The whitespace set of Python `str.strip()` (ASCII part; the strings in
play contain only `' '` and `'\n'` at their edges). -/
def isPySpace (c : Char) : Bool :=
  c = ' ' || c = '\n' || c = '\t' || c = '\r' || c = '\x0b' || c = '\x0c'

/-- Python `str.strip()`. -/
def pyStrip (s : Str) : Str :=
  ((s.dropWhile isPySpace).reverse.dropWhile isPySpace).reverse

/-- `format_search_query_results` (util.py lines 87-139): flatten the
heterogeneous response shapes, return the fixed literal if no sources,
else deduplicate by url (first occurrence wins) and emit one block per
unique source, stripping the final text. -/
def format_search_query_results (truncate : Nat → Str → Str) (search_response : PVal)
    (max_tokens : Nat) (include_raw_content : Bool) : Str :=
  match flattenResp search_response with
  | [] => noResultsMsg
  | s :: rest =>
    pyStrip (headerMsg ++ concatBlocks
      ((dedupByUrl (s :: rest) []).map
        (formatSource truncate max_tokens include_raw_content)))

/-- `run_search_queries` (util.py lines 32-82).  `get_tavily_search()`
failure (missing credentials) is caught and returns `[]`; otherwise the
queries' individual outcomes (`results`, one per query, `.error` for a
query whose gathered result is an exception) are filtered so that failed
queries are omitted and successful ones kept in order. -/
def run_search_queries (get_tavily : Except Str Unit)
    (results : List (Except Str PVal)) : List PVal :=
  match get_tavily with
  | .error _ => []
  | .ok _ =>
    results.filterMap (fun r =>
      match r with
      | .ok doc => some doc
      | .error _ => none)

/-! ## Helper lemmas: `List.isPrefixOf` -/

theorem isPrefixOf_cons_cons (a b : Char) (as bs : Str) :
    List.isPrefixOf (a :: as) (b :: bs) = ((a == b) && List.isPrefixOf as bs) := rfl

theorem isPrefixOf_nil_left : ∀ (l : Str), List.isPrefixOf [] l = true
  | [] => rfl
  | _ :: _ => rfl

theorem isPrefixOf_append_self : ∀ (p l : Str), List.isPrefixOf p (p ++ l) = true
  | [], l => isPrefixOf_nil_left (([] : Str) ++ l)
  | a :: as, l => by
    rw [List.cons_append, isPrefixOf_cons_cons, isPrefixOf_append_self as l]
    simp

theorem isPrefixOf_of_isPrefixOf_append :
    ∀ {p a : Str} (b : Str), List.isPrefixOf p (a ++ b) = true → p.length ≤ a.length →
      List.isPrefixOf p a = true
  | [], a, _, _, _ => isPrefixOf_nil_left a
  | c :: cs, [], b, _, hlen => by simp at hlen
  | c :: cs, d :: ds, b, hpre, hlen => by
    rw [List.cons_append, isPrefixOf_cons_cons] at hpre
    rw [isPrefixOf_cons_cons]
    simp only [Bool.and_eq_true] at hpre ⊢
    exact ⟨hpre.1, isPrefixOf_of_isPrefixOf_append b hpre.2 (by simpa using Nat.le_of_succ_le_succ (by simpa using hlen))⟩

/-! ## Helper lemmas: `pyReplace` -/

theorem replaceFuel_nil (pat rep : Str) (n : Nat) : replaceFuel pat rep n [] = [] := by
  cases n <;> rfl

theorem replaceFuel_congr (pat rep : Str) (hp : pat ≠ []) :
    ∀ (n m : Nat) (l : Str), l.length ≤ n → l.length ≤ m →
      replaceFuel pat rep n l = replaceFuel pat rep m l := by
  intro n
  induction n with
  | zero =>
    intro m l hn _
    have : l = [] := List.eq_nil_of_length_eq_zero (Nat.le_zero.mp hn)
    subst this
    rw [replaceFuel_nil, replaceFuel_nil]
  | succ n ih =>
    intro m l hn hm
    match l with
    | [] => rw [replaceFuel_nil, replaceFuel_nil]
    | c :: rest =>
      match m with
      | 0 => simp at hm
      | m + 1 =>
        have hplen : 1 ≤ pat.length := by
          cases pat with
          | nil => exact absurd rfl hp
          | cons p ps => simp
        simp only [replaceFuel]
        by_cases hpre : pat.isPrefixOf (c :: rest) = true
        · simp only [hpre, if_true]
          congr 1
          apply ih
          · simp only [List.length_drop, List.length_cons]
            simp only [List.length_cons] at hn
            omega
          · simp only [List.length_drop, List.length_cons]
            simp only [List.length_cons] at hm
            omega
        · simp only [hpre, if_false, Bool.false_eq_true]
          congr 1
          apply ih
          · simp only [List.length_cons] at hn; omega
          · simp only [List.length_cons] at hm; omega

theorem pyReplace_nil (pat rep : Str) : pyReplace pat rep [] = [] := rfl

theorem pyReplace_cons_neg {pat : Str} (rep : Str) {c : Char} {l : Str}
    (h : pat.isPrefixOf (c :: l) = false) :
    pyReplace pat rep (c :: l) = c :: pyReplace pat rep l := by
  simp only [pyReplace, List.length_cons, replaceFuel, h, Bool.false_eq_true, if_false]

theorem pyReplace_prefix {pat : Str} (rep : Str) (l : Str) (hp : pat ≠ []) :
    pyReplace pat rep (pat ++ l) = rep ++ pyReplace pat rep l := by
  match pat, hp with
  | p :: ps, _ =>
    have hpre : (p :: ps).isPrefixOf (p :: (ps ++ l)) = true := by
      have h := isPrefixOf_append_self (p :: ps) l
      rwa [List.cons_append] at h
    simp only [pyReplace, List.cons_append, List.length_cons, List.length_append, List.append_eq,
      replaceFuel, hpre, if_true, List.drop_succ_cons, List.drop_left]
    congr 1
    apply replaceFuel_congr _ _ (List.cons_ne_nil p ps)
    · omega
    · exact Nat.le_refl _

theorem containsSub_cons (pat : Str) (c : Char) (rest : Str) :
    containsSub pat (c :: rest) = (pat.isPrefixOf (c :: rest) || containsSub pat rest) := rfl

theorem pyReplace_of_not_contains {pat : Str} (rep : Str) :
    ∀ {s : Str}, containsSub pat s = false → pyReplace pat rep s = s
  | [], _ => rfl
  | c :: rest, h => by
    rw [containsSub_cons, Bool.or_eq_false_iff] at h
    rw [pyReplace_cons_neg rep h.1, pyReplace_of_not_contains rep h.2]

theorem pyReplace_single_append {p : Char} (rep : Str) :
    ∀ (a : Str) (b : Str), (∀ c ∈ a, ¬(c = p)) →
      pyReplace [p] rep (a ++ b) = a ++ pyReplace [p] rep b
  | [], b, _ => rfl
  | c :: a', b, h => by
    have hne : [p].isPrefixOf (c :: (a' ++ b)) = false := by
      rw [isPrefixOf_cons_cons, isPrefixOf_nil_left, Bool.and_true]
      exact beq_eq_false_iff_ne.mpr fun he => h c (List.mem_cons_self c a') he.symm
    rw [List.cons_append, pyReplace_cons_neg rep hne,
      pyReplace_single_append rep a' b fun x hx => h x (List.mem_cons_of_mem c hx),
      List.cons_append]

/-! ## Facts about the marker literal `"TEMP_PLACEHOLDER"` -/

theorem tempMarker_ne_nil : tempMarker ≠ [] := by decide

theorem tempMarker_no_dollar : ∀ c ∈ tempMarker, ¬(c = '$') := by decide

theorem tempMarker_length : tempMarker.length = 16 := by decide

/-- Every proper suffix of the marker has at most 15 characters. -/
theorem tempMarker_tails_short : ∀ p ∈ tempMarker.tails, p = tempMarker ∨ p.length ≤ 15 := by
  decide

/-- The marker is border-free: no proper non-empty suffix of it is also a
prefix of it.  This is what makes the restore pass find exactly the
inserted markers. -/
theorem tempMarker_border_free :
    ∀ p ∈ tempMarker.tails, p ≠ tempMarker → p ≠ [] → p.isPrefixOf tempMarker = false := by
  decide

/-- No suffix of the marker starts with a backslash or a dollar. -/
theorem tempMarker_tails_head :
    ∀ p ∈ tempMarker.tails, p.head? ≠ some '\\' ∧ p.head? ≠ some '$' := by decide

/-- The tail of a non-empty suffix of the marker is a proper suffix. -/
theorem tempMarker_tails_tail :
    ∀ p ∈ tempMarker.tails, p ≠ [] → p.tail ∈ tempMarker.tails ∧ p.tail ≠ tempMarker := by
  decide

theorem tempMarker_not_prefix_of_backslash (x : Str) :
    tempMarker.isPrefixOf ('\\' :: x) = false := by
  show (('T' == '\\') && (strL "EMP_PLACEHOLDER").isPrefixOf x) = false
  rw [show ('T' == '\\') = false from rfl, Bool.false_and]

theorem tempMarker_not_prefix_of_dollar (x : Str) :
    tempMarker.isPrefixOf ('$' :: x) = false := by
  show (('T' == '$') && (strL "EMP_PLACEHOLDER").isPrefixOf x) = false
  rw [show ('T' == '$') = false from rfl, Bool.false_and]

/-! ## Step equations for `markAndEscape` and `escapeSpec` -/

theorem markAndEscape_nil : markAndEscape [] = [] := rfl

theorem markAndEscape_esc (t : Str) :
    markAndEscape ('\\' :: '$' :: t) = tempMarker ++ markAndEscape t := by
  unfold markAndEscape
  rw [show pyReplace escSeq tempMarker ('\\' :: '$' :: t)
        = tempMarker ++ pyReplace escSeq tempMarker t
      from pyReplace_prefix tempMarker t (by decide)]
  exact pyReplace_single_append escSeq tempMarker _ tempMarker_no_dollar

theorem markAndEscape_dollar (t : Str) :
    markAndEscape ('$' :: t) = '\\' :: '$' :: markAndEscape t := by
  unfold markAndEscape
  have hne : escSeq.isPrefixOf ('$' :: t) = false := by
    rw [show escSeq.isPrefixOf ('$' :: t) = (('\\' == '$') && ['$'].isPrefixOf t) from rfl,
      show ('\\' == '$') = false from rfl, Bool.false_and]
  rw [pyReplace_cons_neg tempMarker hne]
  exact pyReplace_prefix escSeq (pyReplace escSeq tempMarker t) (by decide)

theorem markAndEscape_cons_neg {c : Char} {t : Str}
    (hesc : escSeq.isPrefixOf (c :: t) = false) (hd : ¬(c = '$')) :
    markAndEscape (c :: t) = c :: markAndEscape t := by
  unfold markAndEscape
  rw [pyReplace_cons_neg tempMarker hesc]
  apply pyReplace_cons_neg
  rw [isPrefixOf_cons_cons, isPrefixOf_nil_left, Bool.and_true]
  exact beq_eq_false_iff_ne.mpr fun h => hd h.symm

theorem escSeq_isPrefixOf_cons {c : Char} {t : Str} (h : escSeq.isPrefixOf (c :: t) = true) :
    c = '\\' ∧ ∃ u, t = '$' :: u := by
  cases t with
  | nil =>
    rw [show escSeq.isPrefixOf [c] = (('\\' == c) && false) from rfl, Bool.and_false] at h
    exact absurd h (by simp)
  | cons d u =>
    rw [show escSeq.isPrefixOf (c :: d :: u)
          = (('\\' == c) && (('$' == d) && List.isPrefixOf [] u)) from rfl,
      isPrefixOf_nil_left, Bool.and_true, Bool.and_eq_true] at h
    exact ⟨(beq_iff_eq.mp h.1).symm, u, by rw [(beq_iff_eq.mp h.2).symm]⟩

theorem escapeSpec_nil : escapeSpec [] = [] := rfl

theorem escapeSpec_esc (t : Str) :
    escapeSpec ('\\' :: '$' :: t) = '\\' :: '$' :: escapeSpec t := by
  simp [escapeSpec]

theorem escapeSpec_dollar (t : Str) : escapeSpec ('$' :: t) = '\\' :: '$' :: escapeSpec t := by
  cases t with
  | nil => simp [escapeSpec]
  | cons d u => simp [escapeSpec]

theorem escapeSpec_cons_neg {c : Char} {t : Str}
    (hesc : escSeq.isPrefixOf (c :: t) = false) (hd : ¬(c = '$')) :
    escapeSpec (c :: t) = c :: escapeSpec t := by
  cases t with
  | nil => rw [show escapeSpec [c] = if c = '$' then ['\\', '$'] else [c] from rfl,
      if_neg hd, show escapeSpec [] = [] from rfl]
  | cons d u =>
    have h1 : ¬(c = '\\' ∧ d = '$') := by
      rintro ⟨rfl, rfl⟩
      rw [show escSeq.isPrefixOf ('\\' :: '$' :: u)
            = (('\\' == '\\') && (('$' == '$') && List.isPrefixOf [] u)) from rfl,
        isPrefixOf_nil_left, show ('\\' == '\\') = true from rfl,
        show ('$' == '$') = true from rfl] at hesc
      simp at hesc
    simp only [escapeSpec]
    rw [if_neg h1, if_neg hd]

/-! ## The marker cannot be recreated across replace boundaries

If a proper suffix of the marker is a prefix of `markAndEscape t` for a
marker-free `t`, then that suffix was already a prefix of `t` itself:
the marker blocks inserted by the first replace cannot combine with
surrounding text to fake a marker occurrence. -/

theorem tails_prefix_markAndEscape :
    ∀ (n : Nat) (t : Str), t.length ≤ n → ∀ p ∈ tempMarker.tails, p ≠ tempMarker →
      containsSub tempMarker t = false → p.isPrefixOf (markAndEscape t) = true →
      p.isPrefixOf t = true := by
  intro n
  induction n with
  | zero =>
    intro t ht p _ _ _ hpre
    have : t = [] := List.eq_nil_of_length_eq_zero (Nat.le_zero.mp ht)
    subst this
    rw [markAndEscape_nil] at hpre
    cases p with
    | nil => exact isPrefixOf_nil_left []
    | cons a as => exact hpre
  | succ n ih =>
    intro t ht p hp hpne hcont hpre
    cases p with
    | nil => exact isPrefixOf_nil_left t
    | cons d p' =>
      cases t with
      | nil => rw [markAndEscape_nil] at hpre; exact hpre
      | cons c t' =>
        have hcont' : containsSub tempMarker t' = false := by
          rw [containsSub_cons, Bool.or_eq_false_iff] at hcont; exact hcont.2
        by_cases hesc : escSeq.isPrefixOf (c :: t') = true
        · obtain ⟨rfl, u, rfl⟩ := escSeq_isPrefixOf_cons hesc
          rw [markAndEscape_esc] at hpre
          have hlen : (d :: p').length ≤ 15 := by
            rcases tempMarker_tails_short _ hp with h | h
            · exact absurd h hpne
            · exact h
          have hpM : (d :: p').isPrefixOf tempMarker = true :=
            isPrefixOf_of_isPrefixOf_append _ hpre (by rw [tempMarker_length]; omega)
          have h4 := tempMarker_border_free _ hp hpne (List.cons_ne_nil d p')
          exact Bool.noConfusion (h4.symm.trans hpM)
        · by_cases hdol : c = '$'
          · subst hdol
            rw [markAndEscape_dollar, isPrefixOf_cons_cons, Bool.and_eq_true] at hpre
            have hd : d = '\\' := beq_iff_eq.mp hpre.1
            have h5 := (tempMarker_tails_head _ hp).1
            exact absurd (by subst hd; rfl : (d :: p').head? = some '\\') h5
          · rw [markAndEscape_cons_neg (Bool.eq_false_iff.mpr hesc) hdol,
              isPrefixOf_cons_cons, Bool.and_eq_true] at hpre
            obtain ⟨hdc, hp'⟩ := hpre
            have h6 := tempMarker_tails_tail _ hp (List.cons_ne_nil d p')
            have hrec := ih t' (by simp only [List.length_cons] at ht; omega)
              p' h6.1 h6.2 hcont' hp'
            rw [isPrefixOf_cons_cons, Bool.and_eq_true]
            exact ⟨hdc, hrec⟩

/-- For marker-free input, the three-replace pass of
`compile_final_report` computes exactly the one-pass scan `escapeSpec`:
already-escaped `\$` preserved, every bare `$` gains one backslash,
everything else unchanged. -/
theorem escape_pass_eq_escapeSpec :
    ∀ (n : Nat) (s : Str), s.length ≤ n → containsSub tempMarker s = false →
      escape_pass s = escapeSpec s := by
  intro n
  induction n with
  | zero =>
    intro s hs _
    have : s = [] := List.eq_nil_of_length_eq_zero (Nat.le_zero.mp hs)
    subst this
    rfl
  | succ n ih =>
    intro s hs hcont
    have heq : ∀ x, escape_pass x = pyReplace tempMarker escSeq (markAndEscape x) :=
      fun _ => rfl
    cases s with
    | nil => rfl
    | cons c t' =>
      have hcont' : containsSub tempMarker t' = false := by
        rw [containsSub_cons, Bool.or_eq_false_iff] at hcont; exact hcont.2
      by_cases hesc : escSeq.isPrefixOf (c :: t') = true
      · obtain ⟨rfl, u, rfl⟩ := escSeq_isPrefixOf_cons hesc
        have hcont'' : containsSub tempMarker u = false := by
          rw [containsSub_cons, Bool.or_eq_false_iff] at hcont'; exact hcont'.2
        rw [heq, markAndEscape_esc, pyReplace_prefix escSeq _ tempMarker_ne_nil,
          ← heq, escapeSpec_esc]
        rw [ih u (by simp only [List.length_cons] at hs; omega) hcont'']
        rfl
      · by_cases hdol : c = '$'
        · subst hdol
          rw [heq, markAndEscape_dollar,
            pyReplace_cons_neg escSeq (tempMarker_not_prefix_of_backslash _),
            pyReplace_cons_neg escSeq (tempMarker_not_prefix_of_dollar _), ← heq,
            escapeSpec_dollar,
            ih t' (by simp only [List.length_cons] at hs; omega) hcont']
        · have hnp : tempMarker.isPrefixOf (c :: markAndEscape t') = false := by
            apply Bool.eq_false_iff.mpr
            intro htrue
            rw [show tempMarker.isPrefixOf (c :: markAndEscape t')
                  = (('T' == c) && (strL "EMP_PLACEHOLDER").isPrefixOf (markAndEscape t'))
                from rfl, Bool.and_eq_true] at htrue
            have hc : c = 'T' := (beq_iff_eq.mp htrue.1).symm
            have hrest : (strL "EMP_PLACEHOLDER").isPrefixOf t' = true :=
              tails_prefix_markAndEscape t'.length t' (Nat.le_refl _) _
                (by decide) (by decide) hcont' htrue.2
            have : containsSub tempMarker (c :: t') = true := by
              rw [containsSub_cons, Bool.or_eq_true]
              left
              rw [hc, show tempMarker.isPrefixOf ('T' :: t')
                    = (('T' == 'T') && (strL "EMP_PLACEHOLDER").isPrefixOf t') from rfl,
                show ('T' == 'T') = true from rfl, Bool.true_and]
              exact hrest
            exact Bool.noConfusion (hcont.symm.trans this)
          rw [heq, markAndEscape_cons_neg (Bool.eq_false_iff.mpr hesc) hdol,
            pyReplace_cons_neg escSeq hnp, ← heq,
            ih t' (by simp only [List.length_cons] at hs; omega) hcont',
            escapeSpec_cons_neg (Bool.eq_false_iff.mpr hesc) hdol]

/-! ## Lemmas about the compile-time name-to-content dict -/

theorem dictGet_none_iff (k : Str) :
    ∀ (m : List (Str × Str)), dictGet k m = none ↔ k ∉ m.map Prod.fst := by
  intro m
  induction m with
  | nil => simp [dictGet]
  | cons e rest ih =>
    obtain ⟨k', v⟩ := e
    rw [List.map_cons, List.mem_cons]
    cases hrest : dictGet k rest with
    | some w =>
      have h1 : dictGet k ((k', v) :: rest) = some w := by
        simp only [dictGet, hrest]
      have hmem : k ∈ List.map Prod.fst rest := by
        by_contra hno
        exact Option.noConfusion ((ih.mpr hno).symm.trans hrest)
      rw [h1]
      simp [hmem]
    | none =>
      have hnot : k ∉ List.map Prod.fst rest := ih.mp hrest
      have h1 : dictGet k ((k', v) :: rest) = if k' = k then some v else none := by
        simp only [dictGet, hrest]
      rw [h1]
      by_cases hk : k' = k
      · subst hk
        simp
      · rw [if_neg hk]
        constructor
        · intro _ h
          rcases h with rfl | hmem
          · exact hk rfl
          · exact hnot hmem
        · intro _
          rfl

theorem mem_of_dictGet_some {k v : Str} :
    ∀ {m : List (Str × Str)}, dictGet k m = some v → (k, v) ∈ m := by
  intro m
  induction m with
  | nil => intro h; exact absurd h (by simp [dictGet])
  | cons e rest ih =>
    obtain ⟨k', v'⟩ := e
    intro h
    simp only [dictGet] at h
    cases hrest : dictGet k rest with
    | some w =>
      rw [hrest] at h
      exact List.mem_cons_of_mem _ (ih (hrest.trans h))
    | none =>
      rw [hrest] at h
      by_cases hk : k' = k
      · rw [if_pos hk] at h
        subst hk
        obtain rfl : v' = v := Option.some.inj h
        exact List.mem_cons_self _ _
      · rw [if_neg hk] at h
        exact absurd h (by simp)

theorem dictGet_of_mem {k v : Str} :
    ∀ {m : List (Str × Str)}, (m.map Prod.fst).Nodup → (k, v) ∈ m → dictGet k m = some v := by
  intro m
  induction m with
  | nil => intro _ h; exact absurd h (by simp)
  | cons e rest ih =>
    obtain ⟨k', v'⟩ := e
    intro hnod hmem
    rw [List.map_cons, List.nodup_cons] at hnod
    rcases List.mem_cons.mp hmem with heq | htail
    · obtain ⟨rfl, rfl⟩ : k = k' ∧ v = v' := Prod.ext_iff.mp heq
      have hnone : dictGet k rest = none :=
        (dictGet_none_iff k rest).mpr hnod.1
      simp [dictGet, hnone]
    · have := ih hnod.2 htail
      simp [dictGet, this]

theorem dictGet_perm {m₁ m₂ : List (Str × Str)} (hperm : m₁.Perm m₂)
    (hnod : (m₁.map Prod.fst).Nodup) (k : Str) : dictGet k m₁ = dictGet k m₂ := by
  have hnod₂ : (m₂.map Prod.fst).Nodup := ((hperm.map Prod.fst).nodup_iff).mp hnod
  cases h₁ : dictGet k m₁ with
  | none =>
    have hnot := (dictGet_none_iff k m₁).mp h₁
    have : k ∉ m₂.map Prod.fst := fun hmem =>
      hnot (((hperm.map Prod.fst).mem_iff).mpr hmem)
    exact ((dictGet_none_iff k m₂).mpr this).symm
  | some v =>
    have hmem₂ : (k, v) ∈ m₂ := hperm.mem_iff.mp (mem_of_dictGet_some h₁)
    exact (dictGet_of_mem hnod₂ hmem₂).symm

theorem buildDict_keys (completed : List Section) :
    (buildDict completed).map Prod.fst = completed.map Section.name := by
  simp [buildDict, List.map_map, Function.comp]

theorem lookupContents_congr {d₁ d₂ : List (Str × Str)}
    (h : ∀ k, dictGet k d₁ = dictGet k d₂) :
    ∀ (ss : List Section), lookupContents d₁ ss = lookupContents d₂ ss := by
  intro ss
  induction ss with
  | nil => rfl
  | cons s rest ih => simp only [lookupContents, h s.name, ih]

theorem lookupContents_ok {completed : List Section} :
    ∀ {sections : List Section},
      (∀ s ∈ sections, s.name ∈ completed.map Section.name) →
      lookupContents (buildDict completed) sections =
        .ok (sections.map fun s => contentFor completed s.name) := by
  intro sections
  induction sections with
  | nil => intro _; rfl
  | cons s rest ih =>
    intro h
    have hmem : s.name ∈ (buildDict completed).map Prod.fst := by
      rw [buildDict_keys]; exact h s (List.mem_cons_self s rest)
    cases hd : dictGet s.name (buildDict completed) with
    | none => exact absurd ((dictGet_none_iff _ _).mp hd) (by simpa using hmem)
    | some c =>
      simp only [lookupContents, hd, ih fun x hx => h x (List.mem_cons_of_mem s hx),
        List.map_cons]
      simp [contentFor, hd]

theorem lookupContents_error_iff {dict : List (Str × Str)} :
    ∀ (ss : List Section),
      (∃ n, lookupContents dict ss = .error n) ↔
        ∃ s ∈ ss, dictGet s.name dict = none := by
  intro ss
  induction ss with
  | nil =>
    constructor
    · rintro ⟨n, h⟩; exact absurd h (by simp [lookupContents])
    · rintro ⟨s, hmem, -⟩; exact absurd hmem (by simp)
  | cons s rest ih =>
    cases hd : dictGet s.name dict with
    | none =>
      constructor
      · intro _; exact ⟨s, List.mem_cons_self s rest, hd⟩
      · intro _; exact ⟨s.name, by simp [lookupContents, hd]⟩
    | some c =>
      cases hrest : lookupContents dict rest with
      | error e =>
        constructor
        · intro _
          obtain ⟨s', hmem', hd'⟩ := ih.mp ⟨e, hrest⟩
          exact ⟨s', List.mem_cons_of_mem s hmem', hd'⟩
        · intro _; exact ⟨e, by simp [lookupContents, hd, hrest]⟩
      | ok cs =>
        constructor
        · rintro ⟨n, hn⟩
          exact absurd hn (by simp [lookupContents, hd, hrest])
        · rintro ⟨s', hmem', hd'⟩
          rcases List.mem_cons.mp hmem' with rfl | htail
          · exact absurd hd' (by simp [hd])
          · obtain ⟨n, hn⟩ := ih.mpr ⟨s', htail, hd'⟩
            exact absurd hn (by simp [hrest])

/-! ## Lemmas about flattening and url-deduplication -/

theorem flattenList_append :
    ∀ (a b : List PVal), flattenList (a ++ b) = flattenList a ++ flattenList b
  | [], b => rfl
  | x :: a', b => by
    rw [List.cons_append]
    simp only [flattenList]
    rw [flattenList_append a' b, List.append_assoc]

theorem dedupByUrl_append :
    ∀ (a b : List PVal) (seen : List Str),
      dedupByUrl (a ++ b) seen = dedupByUrl a seen ++ dedupByUrl b (seenAfter a seen)
  | [], b, seen => rfl
  | s :: a', b, seen => by
    rw [List.cons_append]
    simp only [dedupByUrl, seenAfter]
    cases urlOf s with
    | none => exact dedupByUrl_append a' b seen
    | some u =>
      by_cases hu : u ∈ seen
      · simp only [if_pos hu]
        exact dedupByUrl_append a' b seen
      · simp only [if_neg hu]
        rw [dedupByUrl_append a' b (u :: seen), List.cons_append]

theorem mem_seenAfter_of_mem :
    ∀ (l : List PVal) (seen : List Str) (u : Str), u ∈ seen → u ∈ seenAfter l seen
  | [], _, _, h => h
  | s :: l', seen, u, h => by
    simp only [seenAfter]
    cases urlOf s with
    | none => exact mem_seenAfter_of_mem l' seen u h
    | some u' =>
      by_cases hu : u' ∈ seen
      · simp only [if_pos hu]
        exact mem_seenAfter_of_mem l' seen u h
      · simp only [if_neg hu]
        exact mem_seenAfter_of_mem l' (u' :: seen) u (List.mem_cons_of_mem u' h)

theorem url_mem_seenAfter :
    ∀ (l : List PVal) (seen : List Str) (s : PVal) (u : Str),
      s ∈ l → urlOf s = some u → u ∈ seenAfter l seen
  | [], _, _, _, h, _ => absurd h (by simp)
  | x :: l', seen, s, u, hmem, hurl => by
    simp only [seenAfter]
    rcases List.mem_cons.mp hmem with rfl | htail
    · rw [hurl]
      by_cases hu : u ∈ seen
      · simp only [if_pos hu]
        exact mem_seenAfter_of_mem l' seen u hu
      · simp only [if_neg hu]
        exact mem_seenAfter_of_mem l' (u :: seen) u (List.mem_cons_self u seen)
    · cases urlOf x with
      | none => exact url_mem_seenAfter l' seen s u htail hurl
      | some u' =>
        by_cases hu : u' ∈ seen
        · simp only [if_pos hu]
          exact url_mem_seenAfter l' seen s u htail hurl
        · simp only [if_neg hu]
          exact url_mem_seenAfter l' (u' :: seen) s u htail hurl

theorem dedupByUrl_nil_of_urls_seen :
    ∀ (l : List PVal) (seen : List Str),
      (∀ s ∈ l, ∀ u, urlOf s = some u → u ∈ seen) → dedupByUrl l seen = []
  | [], _, _ => rfl
  | s :: l', seen, h => by
    simp only [dedupByUrl]
    cases hurl : urlOf s with
    | none =>
      exact dedupByUrl_nil_of_urls_seen l' seen (fun x hx => h x (List.mem_cons_of_mem s hx))
    | some u =>
      show (if u ∈ seen then dedupByUrl l' seen else s :: dedupByUrl l' (u :: seen)) = []
      rw [if_pos (h s (List.mem_cons_self s l') u hurl)]
      exact dedupByUrl_nil_of_urls_seen l' seen fun x hx => h x (List.mem_cons_of_mem s hx)

theorem dedupByUrl_self_append (l : List PVal) :
    dedupByUrl (l ++ l) [] = dedupByUrl l [] := by
  rw [dedupByUrl_append]
  rw [dedupByUrl_nil_of_urls_seen l (seenAfter l []) fun s hs u hu =>
    url_mem_seenAfter l [] s u hs hu]
  rw [List.append_nil]

theorem dedupByUrl_nil_of_no_url :
    ∀ (l : List PVal) (seen : List Str),
      (∀ s ∈ l, urlOf s = none) → dedupByUrl l seen = []
  | [], _, _ => rfl
  | s :: l', seen, h => by
    simp only [dedupByUrl, h s (List.mem_cons_self s l')]
    exact dedupByUrl_nil_of_no_url l' seen fun x hx => h x (List.mem_cons_of_mem s hx)

/-- Order preservation of the dedup pass: the kept sources form a sublist
(subsequence) of the original flattened source list. -/
theorem dedupByUrl_sublist :
    ∀ (l : List PVal) (seen : List Str), (dedupByUrl l seen).Sublist l
  | [], _ => List.Sublist.refl []
  | s :: l', seen => by
    simp only [dedupByUrl]
    cases urlOf s with
    | none => exact (dedupByUrl_sublist l' seen).cons s
    | some u =>
      by_cases hu : u ∈ seen
      · simp only [if_pos hu]
        exact (dedupByUrl_sublist l' seen).cons s
      · simp only [if_neg hu]
        exact (dedupByUrl_sublist l' (u :: seen)).cons₂ s

/-! ## Claim theorems -/

/-- C1 (first part, amended): `compile_final_report` fails — with the
`KeyError` on the name-to-content map that the spec calls
`MissingSectionError` — exactly when some planned section's name is
absent from the map built from `completed_sections`; it never silently
omits a planned section.  (The claim's further clause that this is the
*only* error that can propagate out of the workflow fails on the code:
see `c1_counterexample`.) -/
theorem c1_missing_section_error :
    ∀ (sections completed : List Section),
      (∃ n, compile_final_report sections completed = .error n) ↔
        ∃ s ∈ sections, s.name ∉ completed.map Section.name := by
  intro sections completed
  constructor
  · rintro ⟨n, hn⟩
    have hl : ∃ m, lookupContents (buildDict completed) sections = .error m := by
      unfold compile_final_report at hn
      cases hl : lookupContents (buildDict completed) sections with
      | error m => exact ⟨m, rfl⟩
      | ok cs => rw [hl] at hn; exact absurd hn (by simp)
    obtain ⟨s, hmem, hnone⟩ := (lookupContents_error_iff sections).mp hl
    refine ⟨s, hmem, ?_⟩
    have h2 := (dictGet_none_iff _ _).mp hnone
    rwa [buildDict_keys] at h2
  · rintro ⟨s, hmem, hnot⟩
    have hnone : dictGet s.name (buildDict completed) = none := by
      apply (dictGet_none_iff _ _).mpr
      rwa [buildDict_keys]
    obtain ⟨n, hn⟩ := (lookupContents_error_iff sections).mpr ⟨s, hmem, hnone⟩
    exact ⟨n, by unfold compile_final_report; rw [hn]⟩

/-- C1 (counterexample to the claim as stated): `MissingSectionError` is
*not* the only error that propagates out of the workflow.  A research
section whose unguarded LLM `invoke` call raises (e.g. a rate-limit
error inside `generate_queries` or `write_section`) aborts the whole run
with that error, even though every planned name could still have been
completed. -/
theorem c1_counterexample :
    run_workflow (.ok ()) (.ok [⟨strL "Battery Supply Chains", strL "supply", true, []⟩])
        (fun _ => .error (strL "RateLimitError")) (fun _ s => .ok s)
      = .error (strL "RateLimitError") := rfl

/-- C2 (code bug): the stages below COMPILE do *not* all catch their own
exceptions.  When `get_llm()` raises inside `write_final_sections`, the
`except` branch only prints (the announced early return is missing from
the code), `llm` stays unbound, and the stage raises `UnboundLocalError`
instead of completing the section with placeholder content — so the
exception propagates out of the stage and aborts the run. -/
theorem c2_stage_exception_propagates :
    write_final_sections (.error (strL "OpenAI API key not found or invalid"))
        (.ok (strL "Intro text")) ⟨strL "Introduction", strL "overview", false, []⟩
      = .error unboundLocalError := rfl

/-- C3: for any planned section list and any order in which the parallel
branches delivered their completed sections (`c₂` is any permutation of
the completed collection `c₁`), `compile_final_report` reassigns contents
onto the original planned order and returns the planned-order contents
joined by blank lines (then escaped). -/
theorem c3_compile_order_preservation (sections c₁ c₂ : List Section)
    (hperm : c₁.Perm c₂) (hnodup : (c₁.map Section.name).Nodup)
    (hcov : ∀ s ∈ sections, s.name ∈ c₁.map Section.name) :
    compile_final_report sections c₂ =
      .ok (escape_pass (List.intercalate (strL "\n\n")
        (sections.map fun s => contentFor c₁ s.name))) := by
  have hpermd : (buildDict c₁).Perm (buildDict c₂) := hperm.map _
  have hnodd : ((buildDict c₁).map Prod.fst).Nodup := by
    rw [buildDict_keys]; exact hnodup
  have hpt : ∀ k, dictGet k (buildDict c₂) = dictGet k (buildDict c₁) := fun k =>
    (dictGet_perm hpermd hnodd k).symm
  unfold compile_final_report
  rw [lookupContents_congr hpt sections, lookupContents_ok hcov]

/-- C3 witness: a three-section plan whose branches completed in the
order Body, Conclusion, Intro still compiles to Intro, Body, Conclusion. -/
theorem c3_compile_order_preservation_witness :
    ([⟨strL "Intro", strL "i", false, strL "START"⟩,
      ⟨strL "Body", strL "b", true, strL "BODY"⟩,
      ⟨strL "Conclusion", strL "c", false, strL "END"⟩] : List Section).Perm
      [⟨strL "Body", strL "b", true, strL "BODY"⟩,
       ⟨strL "Conclusion", strL "c", false, strL "END"⟩,
       ⟨strL "Intro", strL "i", false, strL "START"⟩] ∧
    compile_final_report
        [⟨strL "Intro", strL "i", false, []⟩,
         ⟨strL "Body", strL "b", true, []⟩,
         ⟨strL "Conclusion", strL "c", false, []⟩]
        [⟨strL "Body", strL "b", true, strL "BODY"⟩,
         ⟨strL "Conclusion", strL "c", false, strL "END"⟩,
         ⟨strL "Intro", strL "i", false, strL "START"⟩] =
      .ok (escape_pass (List.intercalate (strL "\n\n")
        (([⟨strL "Intro", strL "i", false, []⟩,
           ⟨strL "Body", strL "b", true, []⟩,
           ⟨strL "Conclusion", strL "c", false, []⟩] : List Section).map fun s =>
            contentFor
              ([⟨strL "Intro", strL "i", false, strL "START"⟩,
                ⟨strL "Body", strL "b", true, strL "BODY"⟩,
                ⟨strL "Conclusion", strL "c", false, strL "END"⟩] : List Section) s.name))) ∧
    compile_final_report
        [⟨strL "Intro", strL "i", false, []⟩,
         ⟨strL "Body", strL "b", true, []⟩,
         ⟨strL "Conclusion", strL "c", false, []⟩]
        [⟨strL "Body", strL "b", true, strL "BODY"⟩,
         ⟨strL "Conclusion", strL "c", false, strL "END"⟩,
         ⟨strL "Intro", strL "i", false, strL "START"⟩] =
      .ok (strL "START\n\nBODY\n\nEND") :=
  ⟨(List.perm_append_singleton _ _).symm,
   c3_compile_order_preservation _ _ _ (List.perm_append_singleton _ _).symm
     (by decide) (by decide),
   rfl⟩

/-- C4 (counterexample to the claim as stated): on a report string that
contains an escaped dollar, a bare dollar, *and* the literal marker
`TEMP_PLACEHOLDER`, the escaping pass does not produce exactly one
backslash escape per dollar occurrence (`escapeSpec` is the claim's
one-escape-per-dollar scan): the marker in the content is rewritten to
`\$` as well. -/
theorem c4_counterexample :
    containsSub escSeq (strL "\\$1 $2 TEMP_PLACEHOLDER") = true ∧
    containsSub (strL "$2") (strL "\\$1 $2 TEMP_PLACEHOLDER") = true ∧
    escape_pass (strL "\\$1 $2 TEMP_PLACEHOLDER") = strL "\\$1 \\$2 \\$" ∧
    escape_pass (strL "\\$1 $2 TEMP_PLACEHOLDER")
      ≠ escapeSpec (strL "\\$1 $2 TEMP_PLACEHOLDER") := by
  refine ⟨by decide, by decide, by decide, by decide⟩

/-- C4 (amended): provided the compiled report string does not contain
the literal marker `TEMP_PLACEHOLDER`, the escaping pass produces exactly
one backslash escape for each dollar occurrence — already-escaped `\$`
sequences are preserved unchanged and each bare `$` gains exactly one
backslash (it equals the single scan `escapeSpec`). -/
theorem c4_escape_exactly_once (s : Str) (h : containsSub tempMarker s = false) :
    escape_pass s = escapeSpec s :=
  escape_pass_eq_escapeSpec s.length s (Nat.le_refl _) h

/-- C4 witness: the spec's example `"\$5 and $10"` escapes to
`"\$5 and \$10"`. -/
theorem c4_escape_exactly_once_witness :
    containsSub tempMarker (strL "\\$5 and $10") = false ∧
    escape_pass (strL "\\$5 and $10") = escapeSpec (strL "\\$5 and $10") ∧
    escape_pass (strL "\\$5 and $10") = strL "\\$5 and \\$10" :=
  ⟨by decide, c4_escape_exactly_once _ (by decide), by decide⟩

/-- C5 (counterexample to the claim as stated): a run whose planning LLM
construction raises does complete without raising, but it does *not*
yield an empty report string — the empty `Send` list from
`parallelize_section_writing` schedules nothing after
`generate_report_plan`, so `compile_final_report` never runs and no
`final_report` (not even `""`) is ever written. -/
theorem c5_counterexample :
    run_workflow (.error (strL "no OpenAI key")) (.ok [])
        (fun s => .ok s) (fun _ s => .ok s) = .ok none ∧
    run_workflow (.error (strL "no OpenAI key")) (.ok [])
        (fun s => .ok s) (fun _ s => .ok s) ≠ .ok (some []) :=
  ⟨rfl, fun h => Option.noConfusion (Except.ok.inj h)⟩

/-- C5 (amended): if the planning stage fails (LLM construction or any
exception in the planning body), `generate_report_plan` catches it and
returns the empty section list, and the workflow still completes and
returns to the caller rather than raising — but with no report string at
all: the empty research fan-out ends the run right after planning, so
COMPILE never executes and `final_report` is never written. -/
theorem c5_degraded_planning (plan_llm : Except Str Unit)
    (plan_body : Except Str (List Section))
    (research_step : Section → Except Str Section)
    (final_step : Str → Section → Except Str Section)
    (h : (∃ e, plan_llm = .error e) ∨ (∃ e, plan_body = .error e)) :
    run_workflow plan_llm plan_body research_step final_step = .ok none := by
  have hplan : generate_report_plan plan_llm plan_body = [] := by
    rcases h with ⟨e, rfl⟩ | ⟨e, rfl⟩
    · rfl
    · cases plan_llm <;> rfl
  unfold run_workflow
  rw [hplan]
  rfl

/-- C5 witness: a run whose planning LLM construction raises completes
with no `final_report` and no exception. -/
theorem c5_degraded_planning_witness :
    ((∃ e, (Except.error (strL "no OpenAI key") : Except Str Unit) = .error e) ∨
      (∃ e, (Except.ok ([] : List Section) : Except Str (List Section)) = .error e)) ∧
    run_workflow (.error (strL "no OpenAI key")) (.ok [])
        (fun s => .ok s) (fun _ s => .ok s) = .ok none :=
  ⟨Or.inl ⟨_, rfl⟩, c5_degraded_planning _ _ _ _ (Or.inl ⟨_, rfl⟩)⟩

/-- C6: `run_search_queries` returns `[]` when construction of the Tavily
client itself fails, and an individual failing query is simply omitted
from the returned batch while the other queries' results are kept. -/
theorem c6_search_failures_isolated :
    (∀ (e : Str) (results : List (Except Str PVal)),
      run_search_queries (.error e) results = []) ∧
    (∀ (xs ys : List (Except Str PVal)) (err : Str),
      run_search_queries (.ok ()) (xs ++ .error err :: ys) =
        run_search_queries (.ok ()) (xs ++ ys)) := by
  constructor
  · intro e results; rfl
  · intro xs ys err
    simp only [run_search_queries, List.filterMap_append]
    congr 1

/-- C7: url-deduplication makes formatting idempotent — formatting a
batch list that contains every batch twice (so every url is a duplicate)
yields the same string as formatting the batch list once (first
occurrence wins, later duplicates are dropped). -/
theorem c7_dedup_idempotence (truncate : Nat → Str → Str) (rs : List PVal)
    (mt : Nat) (irc : Bool) :
    format_search_query_results truncate (.plist (rs ++ rs)) mt irc =
      format_search_query_results truncate (.plist rs) mt irc := by
  have hflat : flattenResp (.plist (rs ++ rs)) = flattenList rs ++ flattenList rs := by
    simp only [flattenResp]
    exact flattenList_append rs rs
  cases hF : flattenList rs with
  | nil =>
    have h1 : flattenResp (.plist (rs ++ rs)) = [] := by rw [hflat, hF]; rfl
    have h2 : flattenResp (.plist rs) = ([] : List PVal) := hF
    simp only [format_search_query_results, h1, h2]
  | cons x xs =>
    have h1 : flattenResp (.plist (rs ++ rs)) = x :: (xs ++ (x :: xs)) := by
      rw [hflat, hF]
      rfl
    have h2 : flattenResp (.plist rs) = x :: xs := hF
    simp only [format_search_query_results, h1, h2]
    have hd : dedupByUrl (x :: (xs ++ (x :: xs))) [] = dedupByUrl (x :: xs) [] := by
      have h := dedupByUrl_self_append (x :: xs)
      rwa [List.cons_append] at h
    rw [hd]

/-- C8: whenever the flattened source list is empty,
`format_search_query_results` returns exactly the fixed literal
`"No search results found."` (an ordinary return value, not an
exception). -/
theorem c8_empty_results_literal (truncate : Nat → Str → Str) (resp : PVal)
    (mt : Nat) (irc : Bool) (h : flattenResp resp = []) :
    format_search_query_results truncate resp mt irc = strL "No search results found." := by
  simp only [format_search_query_results, h]
  rfl

/-- C8 witness: a non-dict, non-list response flattens to no sources and
formats to the literal. -/
theorem c8_empty_results_literal_witness :
    flattenResp PVal.other = [] ∧
    format_search_query_results (fun _ s => s) PVal.other 2500 false =
      strL "No search results found." :=
  ⟨rfl, c8_empty_results_literal _ _ _ _ rfl⟩

/-- C9: when the flattened source list is non-empty but contains no dict
with a `url` key, every source is silently dropped and the function
returns just the stripped bare header `"Content from web search:"`,
which is not the no-results literal. -/
theorem c9_no_url_bare_header (truncate : Nat → Str → Str) (resp : PVal)
    (mt : Nat) (irc : Bool) (h1 : flattenResp resp ≠ [])
    (h2 : ∀ s ∈ flattenResp resp, urlOf s = none) :
    format_search_query_results truncate resp mt irc = strL "Content from web search:" ∧
    format_search_query_results truncate resp mt irc ≠ strL "No search results found." := by
  cases hF : flattenResp resp with
  | nil => exact absurd hF h1
  | cons x xs =>
    rw [hF] at h2
    have hded : dedupByUrl (x :: xs) [] = [] := dedupByUrl_nil_of_no_url _ _ h2
    have hfmt : format_search_query_results truncate resp mt irc =
        pyStrip (headerMsg ++ concatBlocks []) := by
      simp only [format_search_query_results, hF, hded, List.map_nil]
    constructor
    · rw [hfmt]; decide
    · rw [hfmt]; decide

/-- C9 witness: a response that is a dict without a `url` key flattens to
one url-less source and formats to the bare header. -/
theorem c9_no_url_bare_header_witness :
    flattenResp (PVal.dict none none none none none) ≠ [] ∧
    (∀ s ∈ flattenResp (PVal.dict none none none none none), urlOf s = none) ∧
    format_search_query_results (fun _ s => s) (PVal.dict none none none none none)
        2500 true = strL "Content from web search:" ∧
    format_search_query_results (fun _ s => s) (PVal.dict none none none none none)
        2500 true ≠ strL "No search results found." :=
  ⟨List.cons_ne_nil _ _,
   fun s hs => by obtain rfl := List.mem_singleton.mp hs; rfl,
   (c9_no_url_bare_header (fun _ s => s) (PVal.dict none none none none none) 2500 true
     (List.cons_ne_nil _ _)
     (fun s hs => by obtain rfl := List.mem_singleton.mp hs; rfl)).1,
   (c9_no_url_bare_header (fun _ s => s) (PVal.dict none none none none none) 2500 true
     (List.cons_ne_nil _ _)
     (fun s hs => by obtain rfl := List.mem_singleton.mp hs; rfl)).2⟩

/-- C10: the marker token of the mark-escape-restore pass collides with
real content.  On any report string with no already-escaped `\$` (so the
marking replace inserts nothing), the pass reduces to escaping dollars
and then rewriting every literal `TEMP_PLACEHOLDER` occurrence to `\$`;
in particular a content string containing the marker comes out with the
marker replaced by `\$` instead of unchanged (which is what the faithful
one-escape-per-dollar scan `escapeSpec` would do). -/
theorem c10_marker_collision :
    (∀ s, containsSub escSeq s = false →
      escape_pass s = pyReplace tempMarker escSeq (pyReplace ['$'] escSeq s)) ∧
    escape_pass (strL "net cost TEMP_PLACEHOLDER total") =
      strL "net cost \\$ total" ∧
    escapeSpec (strL "net cost TEMP_PLACEHOLDER total") =
      strL "net cost TEMP_PLACEHOLDER total" := by
  refine ⟨fun s h => ?_, by decide, by decide⟩
  unfold escape_pass
  rw [pyReplace_of_not_contains tempMarker h]

/-- C10 witness: the general marker-collision equation applied to a
concrete marker-containing content string. -/
theorem c10_marker_collision_witness :
    containsSub escSeq (strL "net cost TEMP_PLACEHOLDER total") = false ∧
    escape_pass (strL "net cost TEMP_PLACEHOLDER total") =
      pyReplace tempMarker escSeq
        (pyReplace ['$'] escSeq (strL "net cost TEMP_PLACEHOLDER total")) :=
  ⟨by decide, c10_marker_collision.1 _ (by decide)⟩

end DeepResearch
